import Mathlib

/-!
Verification of the STFT/iSTFT overlap-add pipeline, the chunked inference
adapter and the mask engine of the `vocal_mastery_lab` repository, as embedded
from the Python sources under `src/poc/uvr_coreml/`.

Arrays are embedded either as Lean lists (where lengths/shapes are the point)
or as index functions `ℕ → ℝ` / `ℕ → ℂ` with lengths carried separately
(matching NumPy arrays accessed only at in-range indices).  Floating-point
arithmetic is embedded as exact real arithmetic.
-/

open Finset

namespace VocalLab

/-! ## Definitions: spectral transform (`np.fft.fft` / `np.fft.ifft`) -/

/-- Primitive complex exponential `exp(2·π·i·m / N)`, the root-of-unity kernel
underlying `np.fft.fft` / `np.fft.ifft`. -/
noncomputable def cexp (N : ℕ) (m : ℤ) : ℂ :=
  Complex.exp (2 * Real.pi * Complex.I * m / N)

/-- Forward discrete Fourier transform of an `N`-point sequence, the semantics
of `np.fft.fft` (bin `k` is `Σ_n x[n]·exp(-2πikn/N)`, no scaling). -/
noncomputable def dft (N : ℕ) (x : ℕ → ℂ) (k : ℕ) : ℂ :=
  ∑ n in range N, x n * cexp N (-(k * n))

/-- Inverse discrete Fourier transform, the semantics of `np.fft.ifft`
(sample `n` is `(1/N)·Σ_k X[k]·exp(2πikn/N)`). -/
noncomputable def idft (N : ℕ) (X : ℕ → ℂ) (n : ℕ) : ℂ :=
  (∑ k in range N, X k * cexp N (k * n)) / N

/-- Forward spectral analysis of a real frame: the non-redundant half-spectrum
(bins `0 … N/2`) of the full transform, the semantics of `np.fft.rfft` as used
in `compare_stft_scaling.py`. -/
noncomputable def analyze (N : ℕ) (x : ℕ → ℝ) (k : ℕ) : ℂ :=
  if k ≤ N / 2 then dft N (fun n => (x n : ℂ)) k else 0

/-- Reconstruction of the full `N`-bin spectrum from the half-spectrum by
conjugate symmetry (`X[N-k] = conj X[k]`), the first step of `np.fft.irfft`. -/
noncomputable def fullSpectrum (N : ℕ) (X : ℕ → ℂ) (k : ℕ) : ℂ :=
  if k ≤ N / 2 then X k else (starRingEnd ℂ) (X (N - k))

/-- Inverse spectral synthesis: rebuild the conjugate-symmetric spectrum and
apply the inverse transform, returning the real part
(`np.fft.irfft`, equivalently `np.fft.ifft(...).real` on a symmetric input). -/
noncomputable def synthesize (N : ℕ) (X : ℕ → ℂ) (n : ℕ) : ℝ :=
  (idft N (fullSpectrum N X) n).re

/-! ## Definitions: framing and overlap-add (`test_stft_simple.py`) -/

/-- Frame count of the forward STFT,
`num_frames = (len(signal) - n_fft) // hop_length + 1` with Python floor
division (which is why the value is an integer that can be negative). -/
def numFramesZ (len fs hop : ℕ) : ℤ :=
  Int.fdiv ((len : ℤ) - fs) hop + 1

/-- Forward framing: the list of raw slices `signal[i*hop : i*hop + n_fft]`
for `frame_idx in range(num_frames)` (a negative `num_frames` yields an empty
range, exactly as in Python). -/
def framesList (signal : List ℝ) (fs hop : ℕ) : List (List ℝ) :=
  (List.range (numFramesZ signal.length fs hop).toNat).map
    (fun i => (signal.drop (i * hop)).take fs)

/-- The window of `np.hanning(M)`: `0.5 - 0.5·cos(2πn/(M-1))` for
`n = 0 … M-1` (the symmetric Hann window). -/
noncomputable def hanning (M : ℕ) (n : ℕ) : ℝ :=
  1 / 2 - 1 / 2 * Real.cos (2 * Real.pi * n / (M - 1))

/-- One in-place slice update `acc[start : start+len] += v` of the iSTFT loop,
as a pointwise function. -/
def addInto (acc : ℕ → ℝ) (start len : ℕ) (v : ℕ → ℝ) : ℕ → ℝ :=
  fun n => if start ≤ n ∧ n < start + len then acc n + v (n - start) else acc n

/-- The overlap-add accumulation loop of `manual_stft_istft`: starting from
zero-filled `output` and `window_sum` buffers, frame `i` adds its synthesis
samples (first component) and the window coefficients (second component) at
offset `i * hop`. -/
def olaAcc (synth : ℕ → ℕ → ℝ) (w : ℕ → ℝ) (fs hop : ℕ) : ℕ → ((ℕ → ℝ) × (ℕ → ℝ))
  | 0 => (fun _ => 0, fun _ => 0)
  | m + 1 =>
    let p := olaAcc synth w fs hop m
    (addInto p.1 (m * hop) fs (synth m), addInto p.2 (m * hop) fs w)

/-- The normalization step
`window_sum = np.where(window_sum > 1e-8, window_sum, 1.0);`
`reconstructed = output / window_sum`. -/
noncomputable def olaNormalize (out ws : ℕ → ℝ) (n : ℕ) : ℝ :=
  out n / (if ws n > 1e-8 then ws n else 1)

/-- Full overlap-add reconstruction of `m` synthesis frames. -/
noncomputable def olaReconstruct (synth : ℕ → ℕ → ℝ) (w : ℕ → ℝ) (fs hop m : ℕ) (n : ℕ) : ℝ :=
  olaNormalize (olaAcc synth w fs hop m).1 (olaAcc synth w fs hop m).2 n

/-- The window-energy accumulator as the specification describes it: the
squared window added at each frame offset.  (Stated from the spec's words, for
comparison with the code's accumulator `(olaAcc …).2`.) -/
noncomputable def specWindowEnergyAcc (w : ℕ → ℝ) (fs hop m : ℕ) (n : ℕ) : ℝ :=
  ∑ i in range m, (if i * hop ≤ n ∧ n < i * hop + fs then (w (n - i * hop)) ^ 2 else 0)

/-! ## Definitions: the concrete `manual_stft_istft` run
(`n_fft = 8`, `hop_length = 2`, `signal = np.ones(16)`). -/

/-- Constant `n_fft = 8`. -/
def nFft : ℕ := 8

/-- Constant `hop_length = 2`. -/
def hopLength : ℕ := 2

/-- Input `signal = np.ones(16, dtype=np.float32)`; sample values (length 16 enters
through the frame count). -/
def signalOnes : ℕ → ℝ := fun _ => 1

/-- Windowed frame `windowed = frame * window` for frame `i`:
`signal[i*hop + n] * window[n]`. -/
noncomputable def windowedFrame (i n : ℕ) : ℝ :=
  signalOnes (i * hopLength + n) * hanning nFft n

/-- Spectrum `fft_result = np.fft.fft(windowed)` for frame `i`. -/
noncomputable def stftResult (i k : ℕ) : ℂ :=
  dft nFft (fun n => (windowedFrame i n : ℂ)) k

/-- Inverse `ifft_result = np.fft.ifft(stft_result[frame_idx]).real`. -/
noncomputable def ifftResult (i n : ℕ) : ℝ :=
  (idft nFft (stftResult i) n).re

/-- Synthesis `windowed_output = ifft_result * window` (the second windowing). -/
noncomputable def windowedOutput (i n : ℕ) : ℝ :=
  ifftResult i n * hanning nFft n

/-- The two accumulation buffers after all 5 frames
(`num_frames = (16 - 8) // 2 + 1 = 5`). -/
noncomputable def manualOla : (ℕ → ℝ) × (ℕ → ℝ) :=
  olaAcc windowedOutput (hanning nFft) nFft hopLength 5

/-- Final `reconstructed = output / np.where(window_sum > 1e-8, window_sum, 1.0)`. -/
noncomputable def reconstructed (n : ℕ) : ℝ :=
  olaNormalize manualOla.1 manualOla.2 n

/-! ## Definitions: chunk adapter (`run_onnx_inference` in
`python/test_separation.py` and `test_python_reference.py`) -/

/-- Plane `real_part = np.real(spectrogram)` for channel `c`, frequency row `f`
(the time axis is the list). -/
def realPlane (spec : ℕ → ℕ → List ℂ) (c f : ℕ) : List ℝ :=
  (spec c f).map Complex.re

/-- Plane `imag_part = np.imag(spectrogram)`. -/
def imagPlane (spec : ℕ → ℕ → List ℂ) (c f : ℕ) : List ℝ :=
  (spec c f).map Complex.im

/-- The time slice `x[start_idx : end_idx]`. -/
def sliceTime (x : List ℝ) (start stop : ℕ) : List ℝ :=
  (x.drop start).take (stop - start)

/-- Padding `np.pad(chunk, ((0,0),(0,0),(0, chunk_size - len)), mode='constant')`
applied only when the chunk is short, exactly as in the source
(`if real_chunk.shape[2] < chunk_size`). -/
def padChunk (x : List ℝ) (cs : ℕ) : List ℝ :=
  if x.length < cs then x ++ List.replicate (cs - x.length) 0 else x

/-- Source channel selected for tensor plane `p`: planes 0,1 read channel 0
and planes 2,3 read channel 1, falling back to channel 0 for mono input
(`real_chunk[1] if channels > 1 else real_chunk[0]`). -/
def chanIdx (channels p : ℕ) : ℕ :=
  if p < 2 then 0 else if 1 < channels then 1 else 0

/-- The raw (unpadded) time slice feeding tensor plane `p`: even planes carry
the real part, odd planes the imaginary part. -/
def rawPlane (spec : ℕ → ℕ → List ℂ) (channels start stop : ℕ) (p f : ℕ) : List ℝ :=
  sliceTime
    (if p % 2 = 0 then realPlane spec (chanIdx channels p) f
     else imagPlane spec (chanIdx channels p) f)
    start stop

/-- Plane `p`, frequency row `f` of the `[4, freq, chunk_size]` model input
tensor built for one chunk: the raw slice, zero-padded on the trailing time
edge to `chunk_size`. -/
def inputPlane (spec : ℕ → ℕ → List ℂ) (channels start stop cs : ℕ) (p f : ℕ) : List ℝ :=
  padChunk (rawPlane spec channels start stop p f) cs

/-- Chunk count `num_chunks = (time_frames + chunk_size - 1) // chunk_size`. -/
def numChunks (tf cs : ℕ) : ℕ :=
  (tf + cs - 1) / cs

/-- The chunked inference loop: for each chunk, slice `[i*cs, min((i+1)*cs, tf))`,
pad, run the engine, trim the returned mask chunk back to the chunk's extent
(`combined_mask[:, :, :end_idx - start_idx]` when short), and concatenate all
chunks along the time axis (`np.concatenate(masks, axis=2)`).  The engine is
the opaque ONNX session: it maps the 4-plane input tensor to a 2-channel
complex mask chunk. -/
def runChunkedInference (spec : ℕ → ℕ → List ℂ) (channels tf cs : ℕ)
    (engine : (ℕ → ℕ → List ℝ) → (ℕ → ℕ → List ℂ)) (c f : ℕ) : List ℂ :=
  ((List.range (numChunks tf cs)).map (fun i =>
    let start := i * cs
    let stop := min ((i + 1) * cs) tf
    let maskChunk := engine (inputPlane spec channels start stop cs) c f
    if stop - start < cs then maskChunk.take (stop - start) else maskChunk)).flatten

/-! ## Definitions: mask engine (`apply_mask` and the complement mask in
`python/test_separation.py`) -/

/-- A 3-D NumPy array: shape `(channels, freq, time)` plus entries. -/
structure NdArray3 where
  dims : ℕ × ℕ × ℕ
  entry : ℕ → ℕ → ℕ → ℂ

/-- NumPy broadcasting of one dimension pair: equal sizes broadcast to the
common size, a size of 1 stretches, anything else is an error. -/
def bcastDim (a b : ℕ) : Option ℕ :=
  if a = b then some a else if a = 1 then some b else if b = 1 then some a else none

/-- Index into an operand along one dimension: a size-1 dimension is read at
index 0, otherwise at the output index. -/
def bcIdx (dim i : ℕ) : ℕ :=
  if dim = 1 then 0 else i

/-- Elementwise complex product with NumPy broadcasting semantics for 3-D
arrays (the meaning of `spectrogram * mask`): `none` models the `ValueError`
NumPy raises on incompatible shapes. -/
def npMul (A B : NdArray3) : Option NdArray3 :=
  match bcastDim A.dims.1 B.dims.1, bcastDim A.dims.2.1 B.dims.2.1,
      bcastDim A.dims.2.2 B.dims.2.2 with
  | some d1, some d2, some d3 =>
    some ⟨(d1, d2, d3), fun i j k =>
      A.entry (bcIdx A.dims.1 i) (bcIdx A.dims.2.1 j) (bcIdx A.dims.2.2 k) *
      B.entry (bcIdx B.dims.1 i) (bcIdx B.dims.2.1 j) (bcIdx B.dims.2.2 k)⟩
  | _, _, _ => none

/-- Operation `apply_mask(spectrogram, mask)`: the body is exactly
`masked_spectrogram = spectrogram * mask` — no shape validation of its own. -/
def apply_mask (spectrogram mask : NdArray3) : Option NdArray3 :=
  npMul spectrogram mask

/-- The complement (residual) mask
`instrumental_mask = (1.0 - np.abs(vocal_mask)) * np.exp(1j * np.angle(vocal_mask))`. -/
noncomputable def complementMask (m : ℂ) : ℂ :=
  (1 - Complex.abs m) * Complex.exp (Complex.I * Complex.arg m)

/-! ## Theorems -/

lemma cexp_add (N : ℕ) (a b : ℤ) : cexp N (a + b) = cexp N a * cexp N b := by
  rw [cexp, cexp, cexp, ← Complex.exp_add]
  congr 1
  push_cast
  ring

lemma cexp_zero (N : ℕ) : cexp N 0 = 1 := by
  simp [cexp]

lemma cexp_mul_nat (N : ℕ) (m : ℤ) (p : ℕ) : cexp N m ^ p = cexp N (m * p) := by
  rw [cexp, cexp, ← Complex.exp_nat_mul]
  congr 1
  push_cast
  ring

lemma cexp_int_mul_self (N : ℕ) (hN : 0 < N) (q : ℤ) : cexp N ((N : ℤ) * q) = 1 := by
  have hN0 : (N : ℂ) ≠ 0 := Nat.cast_ne_zero.mpr hN.ne'
  rw [cexp]
  have harg : 2 * (Real.pi : ℂ) * Complex.I * (((N : ℤ) * q : ℤ) : ℂ) / N
      = q * (2 * Real.pi * Complex.I) := by
    push_cast
    field_simp
    ring
  rw [harg, Complex.exp_int_mul_two_pi_mul_I]

lemma cexp_ne_one (N : ℕ) (hN : 0 < N) (d : ℤ) (hd : ¬ (N : ℤ) ∣ d) : cexp N d ≠ 1 := by
  intro h
  rw [cexp, Complex.exp_eq_one_iff] at h
  obtain ⟨q, hq⟩ := h
  have hN0 : (N : ℂ) ≠ 0 := Nat.cast_ne_zero.mpr hN.ne'
  have hfac : (2 : ℂ) * Real.pi * Complex.I ≠ 0 := by
    simp [Complex.ofReal_ne_zero, Real.pi_ne_zero, Complex.I_ne_zero]
  have h2 : 2 * (Real.pi : ℂ) * Complex.I * d = q * (2 * Real.pi * Complex.I) * N := by
    have h := congrArg (fun z : ℂ => z * N) hq
    simpa [div_mul_cancel₀, hN0] using h
  have h3 : (d : ℂ) * (2 * Real.pi * Complex.I) = ((q * N : ℤ) : ℂ) * (2 * Real.pi * Complex.I) := by
    push_cast
    linear_combination h2
  have h4 : (d : ℂ) = ((q * N : ℤ) : ℂ) := mul_right_cancel₀ hfac h3
  have h5 : d = q * N := by exact_mod_cast h4
  exact hd ⟨q, by rw [h5, mul_comm]⟩

/-- Geometric-sum orthogonality: for `d` not a multiple of `N`, the `N` equally
spaced roots of unity at stride `d` sum to zero. -/
lemma cexp_sum_eq_zero (N : ℕ) (hN : 0 < N) (d : ℤ) (hd : ¬ (N : ℤ) ∣ d) :
    ∑ n in range N, cexp N (d * n) = 0 := by
  have hterm : ∀ n : ℕ, cexp N (d * n) = cexp N d ^ n := by
    intro n
    rw [cexp_mul_nat]
  calc ∑ n in range N, cexp N (d * n) = ∑ n in range N, cexp N d ^ n := by
        exact Finset.sum_congr rfl fun n _ => hterm n
    _ = (cexp N d ^ N - 1) / (cexp N d - 1) := geom_sum_eq (cexp_ne_one N hN d hd) N
    _ = 0 := by
        rw [cexp_mul_nat, mul_comm, cexp_int_mul_self N hN]
        simp

lemma cexp_sum_diag (N : ℕ) : ∑ n in range N, cexp N (0 * n) = N := by
  simp [cexp_zero]

/-- Fourier inversion for the embedded `np.fft` pair: `ifft (fft x) = x`. -/
lemma idft_dft (N : ℕ) (hN : 0 < N) (x : ℕ → ℂ) (n : ℕ) (hn : n < N) :
    idft N (dft N x) n = x n := by
  have hN0 : (N : ℂ) ≠ 0 := Nat.cast_ne_zero.mpr hN.ne'
  have key : ∑ k in range N, dft N x k * cexp N (k * n) = x n * N := by
    calc ∑ k in range N, dft N x k * cexp N (k * n)
        = ∑ k in range N, ∑ m in range N, x m * cexp N (-(k * m)) * cexp N (k * n) := by
          refine Finset.sum_congr rfl fun k _ => ?_
          rw [dft, Finset.sum_mul]
      _ = ∑ m in range N, ∑ k in range N, x m * cexp N (((n : ℤ) - m) * k) := by
          rw [Finset.sum_comm]
          refine Finset.sum_congr rfl fun m _ => Finset.sum_congr rfl fun k _ => ?_
          rw [mul_assoc, ← cexp_add]
          congr 2
          ring
      _ = ∑ m in range N, x m * ∑ k in range N, cexp N (((n : ℤ) - m) * k) := by
          refine Finset.sum_congr rfl fun m _ => ?_
          rw [Finset.mul_sum]
      _ = ∑ m in range N, x m * (if m = n then (N : ℂ) else 0) := by
          refine Finset.sum_congr rfl fun m hm => ?_
          by_cases hmn : m = n
          · subst hmn
            simp [cexp_zero]
          · have hd : ¬ (N : ℤ) ∣ ((n : ℤ) - m) := by
              intro hdvd
              have hmN : m < N := Finset.mem_range.mp hm
              have hlt : |(n : ℤ) - m| < N := by
                rw [abs_sub_lt_iff]
                omega
              have := Int.eq_zero_of_abs_lt_dvd hdvd hlt
              omega
            rw [cexp_sum_eq_zero N hN _ hd, if_neg hmn, mul_zero]
      _ = x n * N := by
          simp only [mul_ite, mul_zero]
          rw [Finset.sum_ite_eq' (range N) n (fun m => x m * (N : ℂ))]
          simp [hn]
  rw [idft, key, mul_div_assoc, div_self hN0, mul_one]

lemma cexp_conj (N : ℕ) (m : ℤ) : (starRingEnd ℂ) (cexp N m) = cexp N (-m) := by
  rw [cexp, cexp, ← Complex.exp_conj]
  congr 1
  simp only [map_div₀, map_mul, Complex.conj_I, Complex.conj_ofReal, map_ofNat, map_intCast,
    map_natCast]
  push_cast
  ring

/-- Conjugate symmetry of the transform of a real sequence:
`conj X[j] = X[N-j]`. -/
lemma dft_real_conj (N : ℕ) (hN : 0 < N) (x : ℕ → ℝ) (j : ℕ) (hj : j ≤ N) :
    (starRingEnd ℂ) (dft N (fun n => (x n : ℂ)) j) = dft N (fun n => (x n : ℂ)) (N - j) := by
  rw [dft, dft, map_sum]
  refine Finset.sum_congr rfl fun m hm => ?_
  rw [map_mul, Complex.conj_ofReal, cexp_conj]
  congr 1
  have h1 : -(-((j : ℤ) * m)) = -(((N - j : ℕ) : ℤ) * m) + (N : ℤ) * m := by
    push_cast [Nat.cast_sub hj]
    ring
  rw [h1, cexp_add, cexp_int_mul_self N hN, mul_one]

/-- C4: for every real frame of even positive length `N`, inverting the forward
half-spectrum analysis through conjugate-symmetric spectrum reconstruction
returns the frame exactly (`synthesize (analyze x) = x` in exact arithmetic). -/
theorem synthesize_analyze_roundtrip (N : ℕ) (x : ℕ → ℝ) (n : ℕ)
    (heven : N % 2 = 0) (hN : 0 < N) (hn : n < N) :
    synthesize N (analyze N x) n = x n := by
  have hspec : ∀ k ∈ range N, fullSpectrum N (analyze N x) k * cexp N (k * n)
      = dft N (fun m => (x m : ℂ)) k * cexp N (k * n) := by
    intro k hk
    have hkN : k < N := Finset.mem_range.mp hk
    by_cases hk2 : k ≤ N / 2
    · rw [fullSpectrum, if_pos hk2, analyze, if_pos hk2]
    · have hub : N - k ≤ N / 2 := by omega
      have hcancel : N - (N - k) = k := by omega
      rw [fullSpectrum, if_neg hk2, analyze, if_pos hub,
        dft_real_conj N hN x (N - k) (by omega), hcancel]
  rw [synthesize, idft, Finset.sum_congr rfl hspec]
  have hid : (∑ k in range N, dft N (fun m => (x m : ℂ)) k * cexp N (k * n)) / N
      = idft N (dft N (fun m => (x m : ℂ))) n := rfl
  rw [hid, idft_dft N hN _ n hn, Complex.ofReal_re]

/-- Witness for C4 at `N = 2`, `x = 1`. -/
theorem synthesize_analyze_roundtrip_witness :
    synthesize 2 (analyze 2 (fun _ => 1)) 0 = 1 :=
  synthesize_analyze_roundtrip 2 (fun _ => 1) 0 rfl (by norm_num) (by norm_num)

/-- The Nyquist-rate kernel alternates sign: `exp(-2πi·(N/2)·n/N) = (-1)^n`. -/
lemma cexp_nyquist (N : ℕ) (heven : N % 2 = 0) (hN : 0 < N) (n : ℕ) :
    cexp N (-(((N / 2 : ℕ) : ℤ) * n)) = (-1 : ℂ) ^ n := by
  obtain ⟨M, hM⟩ : ∃ M, N = 2 * M := ⟨N / 2, by omega⟩
  have hM0 : (M : ℂ) ≠ 0 := by
    exact_mod_cast (by omega : (M : ℤ) ≠ 0)
  rw [cexp]
  have harg : 2 * (Real.pi : ℂ) * Complex.I * ((-(((N / 2 : ℕ) : ℤ) * n) : ℤ) : ℂ) / N
      = n * (-(Real.pi * Complex.I)) := by
    subst hM
    have hdiv : 2 * M / 2 = M := by omega
    rw [hdiv]
    push_cast
    field_simp
    ring
  rw [harg, Complex.exp_nat_mul, Complex.exp_neg, Complex.exp_pi_mul_I]
  norm_num

/-- C9: for every real input frame of even length `N`, the analysis output has
zero imaginary part at bin 0 (DC) and at bin `N/2` (Nyquist). -/
theorem dc_nyquist_imag_zero (N : ℕ) (x : ℕ → ℝ) (heven : N % 2 = 0) (hN : 0 < N) :
    (analyze N x 0).im = 0 ∧ (analyze N x (N / 2)).im = 0 := by
  constructor
  · have h0 : analyze N x 0 = ∑ m in range N, ((x m : ℂ)) := by
      rw [analyze, if_pos (Nat.zero_le _), dft]
      refine Finset.sum_congr rfl fun m _ => ?_
      simp [cexp_zero]
    rw [h0, Complex.im_sum]
    simp
  · have hNy : analyze N x (N / 2) = ∑ m in range N, ((x m * (-1 : ℝ) ^ m : ℝ) : ℂ) := by
      rw [analyze, if_pos (le_refl _), dft]
      refine Finset.sum_congr rfl fun m _ => ?_
      rw [cexp_nyquist N heven hN m]
      push_cast
      ring
    rw [hNy, Complex.im_sum]
    exact Finset.sum_eq_zero fun m _ => Complex.ofReal_im _

/-- Witness for C9 at `N = 2`, `x n = n`. -/
theorem dc_nyquist_imag_zero_witness :
    (analyze 2 (fun m => (m : ℝ)) 0).im = 0 ∧ (analyze 2 (fun m => (m : ℝ)) 1).im = 0 :=
  dc_nyquist_imag_zero 2 (fun m => (m : ℝ)) rfl (by norm_num)

/-- C3: the framing loop produces `floor((len - fs) / hop) + 1` frames when
`len ≥ fs`, and zero frames when `len < fs` (Python's `range` of a negative
count is empty). -/
theorem framing_frame_count (signal : List ℝ) (fs hop : ℕ) (_hfs : 0 < fs) (hhop : 0 < hop) :
    (fs ≤ signal.length →
      (framesList signal fs hop).length = (signal.length - fs) / hop + 1) ∧
    (signal.length < fs → (framesList signal fs hop).length = 0) := by
  constructor
  · intro hge
    rw [framesList, List.length_map, List.length_range, numFramesZ]
    have hcast : ((signal.length : ℤ) - fs) = ((signal.length - fs : ℕ) : ℤ) := by omega
    rw [hcast, ← Int.ofNat_fdiv]
    generalize (signal.length - fs) / hop = q
    omega
  · intro hlt
    rw [framesList, List.length_map, List.length_range, numFramesZ]
    have hpos : (0 : ℤ) < hop := by exact_mod_cast hhop
    have hne : (hop : ℤ) ≠ 0 := hpos.ne'
    rw [Int.fdiv_eq_ediv _ hpos.le]
    have hqneg : ((signal.length : ℤ) - fs) / hop < 0 := by
      by_contra hge
      push_neg at hge
      have h1 : 0 ≤ (hop : ℤ) * (((signal.length : ℤ) - fs) / hop) := mul_nonneg hpos.le hge
      have h2 : 0 ≤ ((signal.length : ℤ) - fs) % hop := Int.emod_nonneg _ hne
      have h3 := Int.ediv_add_emod ((signal.length : ℤ) - fs) hop
      have ha : ((signal.length : ℤ) - fs) < 0 := by omega
      linarith
    generalize hq : ((signal.length : ℤ) - fs) / (hop : ℤ) = q at hqneg ⊢
    omega

/-- Witness for C3: a 5-sample signal with `fs = 3`, `hop = 2` yields 2 frames,
and a 2-sample signal yields none. -/
theorem framing_frame_count_witness :
    (framesList (List.replicate 5 (1 : ℝ)) 3 2).length = 2 ∧
    (framesList (List.replicate 2 (1 : ℝ)) 3 2).length = 0 := by
  constructor
  · have h := (framing_frame_count (List.replicate 5 (1 : ℝ)) 3 2 (by norm_num) (by norm_num)).1
    simpa using h (by simp)
  · have h := (framing_frame_count (List.replicate 2 (1 : ℝ)) 3 2 (by norm_num) (by norm_num)).2
    simpa using h (by simp)

/-- Closed form of the overlap-add output accumulator: frame `i` contributes
its synthesis sample wherever its `[i·hop, i·hop+fs)` support covers `n`. -/
lemma olaAcc_fst (synth : ℕ → ℕ → ℝ) (w : ℕ → ℝ) (fs hop : ℕ) (m n : ℕ) :
    (olaAcc synth w fs hop m).1 n
      = ∑ i in range m, (if i * hop ≤ n ∧ n < i * hop + fs then synth i (n - i * hop) else 0) := by
  induction m with
  | zero => simp [olaAcc]
  | succ k ih =>
    rw [Finset.sum_range_succ, ← ih]
    simp only [olaAcc, addInto]
    by_cases h : k * hop ≤ n ∧ n < k * hop + fs
    · rw [if_pos h, if_pos h]
    · rw [if_neg h, if_neg h, add_zero]

/-- Closed form of the code's normalization accumulator: frame `i` contributes
the window coefficient (to the first power) wherever its support covers `n`. -/
lemma olaAcc_snd (synth : ℕ → ℕ → ℝ) (w : ℕ → ℝ) (fs hop : ℕ) (m n : ℕ) :
    (olaAcc synth w fs hop m).2 n
      = ∑ i in range m, (if i * hop ≤ n ∧ n < i * hop + fs then w (n - i * hop) else 0) := by
  induction m with
  | zero => simp [olaAcc]
  | succ k ih =>
    rw [Finset.sum_range_succ, ← ih]
    simp only [olaAcc, addInto]
    by_cases h : k * hop ≤ n ∧ n < k * hop + fs
    · rw [if_pos h, if_pos h]
    · rw [if_neg h, if_neg h, add_zero]

/-- C1 counterexample: the claim says the normalization accumulator receives
the squared window.  With a single frame, `fs = hop = 1` and the constant
window `1/2`, the code's accumulator holds `1/2` while the spec's
window-energy accumulator holds `1/4`. -/
theorem ola_accumulator_not_window_energy :
    (olaAcc (fun _ _ => 0) (fun _ => 1 / 2) 1 1 1).2 0
      ≠ specWindowEnergyAcc (fun _ => 1 / 2) 1 1 1 0 := by
  have hl : (olaAcc (fun _ _ => (0 : ℝ)) (fun _ => 1 / 2) 1 1 1).2 0 = 1 / 2 := by
    rw [olaAcc_snd]
    norm_num
  have hr : specWindowEnergyAcc (fun _ => (1 : ℝ) / 2) 1 1 1 0 = 1 / 4 := by
    rw [specWindowEnergyAcc]
    norm_num
  rw [hl, hr]
  norm_num

/-- C1 (amended): in the overlap-add reconstruction of `manual_stft_istft`,
for every sequence of synthesis frames with hop and output position, the
normalization accumulator receives the *window itself* (not its square) at
each frame offset, and after all frames the output is divided elementwise by
this accumulator, substituting 1.0 at every position where the accumulated
window sum is at or below 1e-8. -/
theorem ola_window_sum_normalization (synth : ℕ → ℕ → ℝ) (w : ℕ → ℝ) (fs hop m n : ℕ) :
    (olaAcc synth w fs hop m).2 n
        = ∑ i in range m, (if i * hop ≤ n ∧ n < i * hop + fs then w (n - i * hop) else 0) ∧
    olaReconstruct synth w fs hop m n
        = (∑ i in range m, (if i * hop ≤ n ∧ n < i * hop + fs then synth i (n - i * hop) else 0))
          / (if (∑ i in range m, (if i * hop ≤ n ∧ n < i * hop + fs then w (n - i * hop) else 0))
                > 1e-8
             then ∑ i in range m, (if i * hop ≤ n ∧ n < i * hop + fs then w (n - i * hop) else 0)
             else 1) := by
  refine ⟨olaAcc_snd synth w fs hop m n, ?_⟩
  rw [olaReconstruct, olaNormalize, olaAcc_fst, olaAcc_snd]

/-- Mirror-symmetry reduction for angles `2πa/7`: when `a + b = 7`,
`cos(2πa/7) = cos(2πb/7)`. -/
lemma cos_two_pi_frac_reduce (a b : ℝ) (hab : a + b = 7) :
    Real.cos (2 * Real.pi * a / 7) = Real.cos (2 * Real.pi * b / 7) := by
  have h : 2 * Real.pi * a / 7 = 2 * Real.pi - 2 * Real.pi * b / 7 := by
    have h7 : a = 7 - b := by linarith
    rw [h7]
    ring
  rw [h, Real.cos_two_pi_sub]

/-- Real part of the sum of the seventh roots of unity:
`cos(2π/7) + cos(4π/7) + cos(6π/7) = -1/2`. -/
lemma cos_sum_seven :
    Real.cos (2 * Real.pi / 7) + Real.cos (2 * Real.pi * 2 / 7)
      + Real.cos (2 * Real.pi * 3 / 7) = -(1 / 2) := by
  have hsum := cexp_sum_eq_zero 7 (by norm_num) 1 (by decide)
  have hre : ∀ n : ℕ, (cexp 7 (1 * n)).re = Real.cos (2 * Real.pi * n / 7) := by
    intro n
    rw [cexp]
    have harg : 2 * (Real.pi : ℂ) * Complex.I * ((1 * (n : ℕ) : ℤ) : ℂ) / ((7 : ℕ) : ℂ)
        = ((2 * Real.pi * n / 7 : ℝ) : ℂ) * Complex.I := by
      push_cast
      ring
    rw [harg, Complex.exp_ofReal_mul_I_re]
  have hre0 := congrArg Complex.re hsum
  rw [Complex.re_sum] at hre0
  simp only [hre] at hre0
  rw [Finset.sum_range_succ, Finset.sum_range_succ, Finset.sum_range_succ,
    Finset.sum_range_succ, Finset.sum_range_succ, Finset.sum_range_succ,
    Finset.sum_range_succ, Finset.sum_range_zero] at hre0
  have h4 : Real.cos (2 * Real.pi * 4 / 7) = Real.cos (2 * Real.pi * 3 / 7) :=
    cos_two_pi_frac_reduce 4 3 (by norm_num)
  have h5 : Real.cos (2 * Real.pi * 5 / 7) = Real.cos (2 * Real.pi * 2 / 7) :=
    cos_two_pi_frac_reduce 5 2 (by norm_num)
  have h6 : Real.cos (2 * Real.pi * 6 / 7) = Real.cos (2 * Real.pi * 1 / 7) :=
    cos_two_pi_frac_reduce 6 1 (by norm_num)
  have h1 : Real.cos (2 * Real.pi * 1 / 7) = Real.cos (2 * Real.pi / 7) := by
    norm_num
  have h0 : Real.cos (2 * Real.pi * (0 : ℕ) / 7) = 1 := by
    norm_num
  norm_num [h0] at hre0
  rw [h4, h5, h6, h1] at hre0
  linarith

lemma hanning8_0 : hanning 8 0 = 0 := by
  rw [hanning]
  norm_num

lemma hanning8_2 : hanning 8 2 = 1 / 2 - 1 / 2 * Real.cos (2 * Real.pi * 2 / 7) := by
  rw [hanning]
  norm_num

lemma hanning8_4 : hanning 8 4 = 1 / 2 - 1 / 2 * Real.cos (2 * Real.pi * 3 / 7) := by
  rw [hanning]
  have h : Real.cos (2 * Real.pi * 4 / 7) = Real.cos (2 * Real.pi * 3 / 7) :=
    cos_two_pi_frac_reduce 4 3 (by norm_num)
  norm_num [h]

lemma hanning8_6 : hanning 8 6 = 1 / 2 - 1 / 2 * Real.cos (2 * Real.pi / 7) := by
  rw [hanning]
  have h : Real.cos (2 * Real.pi * 6 / 7) = Real.cos (2 * Real.pi * 1 / 7) :=
    cos_two_pi_frac_reduce 6 1 (by norm_num)
  have h1 : Real.cos (2 * Real.pi * 1 / 7) = Real.cos (2 * Real.pi / 7) := by
    norm_num
  norm_num [h, h1]

/-- Sum of the stride-2 window coset `w[0] + w[2] + w[4] + w[6]` is exactly `7/4`. -/
lemma hann_coset_sum :
    hanning 8 0 + hanning 8 2 + hanning 8 4 + hanning 8 6 = 7 / 4 := by
  rw [hanning8_0, hanning8_2, hanning8_4, hanning8_6]
  have h := cos_sum_seven
  linarith

/-- Sum of squares over the same coset is exactly `21/16`. -/
lemma hann_coset_sq_sum :
    hanning 8 0 ^ 2 + hanning 8 2 ^ 2 + hanning 8 4 ^ 2 + hanning 8 6 ^ 2 = 21 / 16 := by
  rw [hanning8_0, hanning8_2, hanning8_4, hanning8_6]
  have hA2 : Real.cos (2 * Real.pi / 7) ^ 2 = 1 / 2 + Real.cos (2 * Real.pi * 2 / 7) / 2 := by
    rw [Real.cos_sq]
    have h : 2 * (2 * Real.pi / 7) = 2 * Real.pi * 2 / 7 := by ring
    rw [h]
  have hB2 : Real.cos (2 * Real.pi * 2 / 7) ^ 2
      = 1 / 2 + Real.cos (2 * Real.pi * 3 / 7) / 2 := by
    rw [Real.cos_sq]
    have h : 2 * (2 * Real.pi * 2 / 7) = 2 * Real.pi * 4 / 7 := by ring
    rw [h, cos_two_pi_frac_reduce 4 3 (by norm_num)]
  have hC2 : Real.cos (2 * Real.pi * 3 / 7) ^ 2
      = 1 / 2 + Real.cos (2 * Real.pi / 7) / 2 := by
    rw [Real.cos_sq]
    have h : 2 * (2 * Real.pi * 3 / 7) = 2 * Real.pi * 6 / 7 := by ring
    rw [h, cos_two_pi_frac_reduce 6 1 (by norm_num)]
    norm_num
  have hS := cos_sum_seven
  nlinarith [hA2, hB2, hC2, hS]

/-- Roundtrip `np.fft.ifft(np.fft.fft(frame * window)).real` returns the windowed frame
exactly. -/
lemma ifftResult_eq (i n : ℕ) (hn : n < 8) : ifftResult i n = windowedFrame i n := by
  rw [ifftResult]
  have hid : idft nFft (stftResult i) n
      = idft nFft (dft nFft (fun m => (windowedFrame i m : ℂ))) n := rfl
  rw [hid, idft_dft nFft (by norm_num [nFft]) _ n (by simpa [nFft] using hn)]
  exact Complex.ofReal_re _

/-- The synthesis contribution of frame `i` at in-frame offset `n` is the
squared window coefficient (the DC input is all ones). -/
lemma windowedOutput_eq (i n : ℕ) (hn : n < 8) : windowedOutput i n = hanning 8 n ^ 2 := by
  rw [windowedOutput, ifftResult_eq i n hn]
  simp only [windowedFrame, signalOnes, nFft]
  ring

lemma manualOla_fst_6 :
    manualOla.1 6 = hanning 8 0 ^ 2 + hanning 8 2 ^ 2 + hanning 8 4 ^ 2 + hanning 8 6 ^ 2 := by
  rw [manualOla, olaAcc_fst]
  rw [Finset.sum_range_succ, Finset.sum_range_succ, Finset.sum_range_succ,
    Finset.sum_range_succ, Finset.sum_range_succ, Finset.sum_range_zero]
  norm_num [hopLength, nFft]
  rw [windowedOutput_eq 0 6 (by norm_num), windowedOutput_eq 1 4 (by norm_num),
    windowedOutput_eq 2 2 (by norm_num), windowedOutput_eq 3 0 (by norm_num)]
  ring

lemma manualOla_snd_6 :
    manualOla.2 6 = hanning 8 0 + hanning 8 2 + hanning 8 4 + hanning 8 6 := by
  rw [manualOla, olaAcc_snd]
  rw [Finset.sum_range_succ, Finset.sum_range_succ, Finset.sum_range_succ,
    Finset.sum_range_succ, Finset.sum_range_succ, Finset.sum_range_zero]
  norm_num [hopLength, nFft]
  ring

/-- C2: at the fully overlapped interior index 6 of the concrete
`manual_stft_istft` run (16 ones, `n_fft = 8`, `hop = 2`, Hann window), the
reconstructed value is exactly `3/4` — it is *not* within `1e-5` of `1.0`,
because the code divides by the accumulated window sum while the synthesis
path applies the window twice. -/
theorem manual_reconstruction_interior :
    reconstructed 6 = 3 / 4 ∧ ¬ |reconstructed 6 - 1| ≤ 1e-5 := by
  have hout : manualOla.1 6 = 21 / 16 := by
    rw [manualOla_fst_6, hann_coset_sq_sum]
  have hws : manualOla.2 6 = 7 / 4 := by
    rw [manualOla_snd_6, hann_coset_sum]
  have hrec : reconstructed 6 = 3 / 4 := by
    rw [reconstructed, olaNormalize, hout, hws]
    norm_num
  refine ⟨hrec, ?_⟩
  rw [hrec, abs_of_nonpos (by norm_num)]
  norm_num

/-- C6: the complement mask has magnitude `|1 - |m||` (the phase factor is
unimodular), and no clamping to `[0,1]` occurs: whenever `|m| > 1` the
complement's magnitude is exactly `|m| - 1`. -/
theorem complement_mask_magnitude (m : ℂ) :
    Complex.abs (complementMask m) = |1 - Complex.abs m| ∧
    (1 < Complex.abs m → Complex.abs (complementMask m) = Complex.abs m - 1) := by
  have habs : Complex.abs (complementMask m) = |1 - Complex.abs m| := by
    rw [complementMask, map_mul, Complex.abs_exp]
    have hre : (Complex.I * (Complex.arg m : ℂ)).re = 0 := by
      simp
    rw [hre, Real.exp_zero, mul_one]
    have hcast : ((1 : ℂ) - (Complex.abs m : ℝ)) = (((1 - Complex.abs m : ℝ)) : ℂ) := by
      push_cast
      ring
    rw [hcast, Complex.abs_ofReal]
  refine ⟨habs, fun hm => ?_⟩
  rw [habs, abs_of_nonpos (by linarith)]
  ring

/-- Witness for C6 at `m = -3`: the complement's magnitude is `3 - 1 = 2`,
which exceeds 1 (no clamping). -/
theorem complement_mask_magnitude_witness :
    1 < Complex.abs (-3 : ℂ) ∧
    Complex.abs (complementMask (-3)) = Complex.abs (-3 : ℂ) - 1 ∧
    1 < Complex.abs (complementMask (-3)) := by
  have hcast : (-3 : ℂ) = ((-3 : ℝ) : ℂ) := by norm_num
  have h3 : Complex.abs (-3 : ℂ) = 3 := by
    rw [hcast, Complex.abs_ofReal]
    norm_num
  have h := (complement_mask_magnitude (-3)).2 (by rw [h3]; norm_num)
  exact ⟨by rw [h3]; norm_num, h, by rw [h, h3]; norm_num⟩

/-- C5: a spectrogram time slice strictly shorter than the chunk size is
padded to exactly `cs` time steps, only on the trailing edge (the leading part
is the untouched raw slice), and every padded value is exactly zero, in every
tensor plane. -/
theorem chunk_padding (spec : ℕ → ℕ → List ℂ) (channels tf start stop cs p f : ℕ)
    (hlen : ∀ c0 f0, (spec c0 f0).length = tf)
    (_hp : p < 4) (hstart : start ≤ stop) (hstop : stop ≤ tf) (hshort : stop - start < cs) :
    (inputPlane spec channels start stop cs p f).length = cs ∧
    (∀ t, t < stop - start →
      (inputPlane spec channels start stop cs p f).getD t 0
        = (rawPlane spec channels start stop p f).getD t 0) ∧
    (∀ t, stop - start ≤ t → t < cs →
      (inputPlane spec channels start stop cs p f).getD t 0 = 0) := by
  have hraw : (rawPlane spec channels start stop p f).length = stop - start := by
    rw [rawPlane, sliceTime]
    by_cases hpar : p % 2 = 0
    · rw [if_pos hpar]
      simp [realPlane, hlen]
      omega
    · rw [if_neg hpar]
      simp [imagPlane, hlen]
      omega
  have hcond : (rawPlane spec channels start stop p f).length < cs := by
    rw [hraw]
    exact hshort
  refine ⟨?_, ?_, ?_⟩
  · rw [inputPlane, padChunk, if_pos hcond, List.length_append, List.length_replicate, hraw]
    omega
  · intro t ht
    rw [inputPlane, padChunk, if_pos hcond]
    exact List.getD_append _ _ _ _ (by rw [hraw]; exact ht)
  · intro t ht1 ht2
    rw [inputPlane, padChunk, if_pos hcond]
    rw [List.getD_append_right _ _ _ _ (by rw [hraw]; exact ht1)]
    rw [List.getD_eq_getElem?_getD, List.getElem?_replicate]
    have : t - (rawPlane spec channels start stop p f).length < cs - (rawPlane spec channels start stop p f).length := by
      rw [hraw]
      omega
    simp [this]

/-- Witness for C5: a one-frame slice padded to 3 frames. -/
theorem chunk_padding_witness :
    (inputPlane (fun _ _ => [(3 : ℂ)]) 2 0 1 3 0 0).length = 3 ∧
    (∀ t, t < 1 - 0 →
      (inputPlane (fun _ _ => [(3 : ℂ)]) 2 0 1 3 0 0).getD t 0
        = (rawPlane (fun _ _ => [(3 : ℂ)]) 2 0 1 0 0).getD t 0) ∧
    (∀ t, 1 - 0 ≤ t → t < 3 →
      (inputPlane (fun _ _ => [(3 : ℂ)]) 2 0 1 3 0 0).getD t 0 = 0) :=
  chunk_padding (fun _ _ => [(3 : ℂ)]) 2 1 0 1 3 0 0 (fun _ _ => rfl)
    (by norm_num) (by norm_num) (by norm_num) (by norm_num)

/-- C7 counterexample: `apply_mask` performs no shape validation — on the
mismatched (broadcast-compatible) shapes `(1,1,2)` and `(1,1,1)` it still
returns a result instead of failing. -/
theorem apply_mask_no_shape_check :
    (NdArray3.mk (1, 1, 2) (fun _ _ _ => 2)).dims ≠ (NdArray3.mk (1, 1, 1) (fun _ _ _ => 3)).dims ∧
    (apply_mask (NdArray3.mk (1, 1, 2) (fun _ _ _ => 2))
      (NdArray3.mk (1, 1, 1) (fun _ _ _ => 3))).isSome = true := by
  constructor
  · simp
  · rfl

lemma bcIdx_of_lt (dim i : ℕ) (hi : i < dim) : bcIdx dim i = i := by
  rw [bcIdx]
  by_cases h : dim = 1
  · rw [if_pos h]
    omega
  · rw [if_neg h]

/-- C7 (amended): when the two shapes match exactly, `apply_mask` succeeds and
returns the elementwise complex product (at every in-range index); it raises
no error of its own — mismatched shapes follow NumPy broadcasting instead of
a `ShapeMismatch` failure. -/
theorem apply_mask_elementwise (A B : NdArray3) (h : A.dims = B.dims) :
    ∃ C, apply_mask A B = some C ∧ C.dims = A.dims ∧
      ∀ i j k, i < A.dims.1 → j < A.dims.2.1 → k < A.dims.2.2 →
        C.entry i j k = A.entry i j k * B.entry i j k := by
  rcases A with ⟨⟨a1, a2, a3⟩, Ae⟩
  rcases B with ⟨⟨b1, b2, b3⟩, Be⟩
  obtain ⟨h1, h2, h3⟩ : a1 = b1 ∧ a2 = b2 ∧ a3 = b3 := by
    simpa [Prod.ext_iff] using h
  subst h1
  subst h2
  subst h3
  refine ⟨⟨(a1, a2, a3), fun i j k =>
    Ae (bcIdx a1 i) (bcIdx a2 j) (bcIdx a3 k) * Be (bcIdx a1 i) (bcIdx a2 j) (bcIdx a3 k)⟩,
    ?_, rfl, ?_⟩
  · rw [apply_mask, npMul]
    simp [bcastDim]
  · intro i j k hi hj hk
    simp only
    rw [bcIdx_of_lt _ _ hi, bcIdx_of_lt _ _ hj, bcIdx_of_lt _ _ hk]

/-- Witness for C7's amended theorem on concrete equal-shape arrays. -/
theorem apply_mask_elementwise_witness :
    ∃ C, apply_mask (NdArray3.mk (1, 2, 2) (fun _ _ _ => 2))
        (NdArray3.mk (1, 2, 2) (fun _ _ _ => 3)) = some C ∧
      C.dims = (NdArray3.mk (1, 2, 2) (fun _ _ _ => (2 : ℂ))).dims ∧
      ∀ i j k, i < (NdArray3.mk (1, 2, 2) (fun _ _ _ => (2 : ℂ))).dims.1 →
        j < (NdArray3.mk (1, 2, 2) (fun _ _ _ => (2 : ℂ))).dims.2.1 →
        k < (NdArray3.mk (1, 2, 2) (fun _ _ _ => (2 : ℂ))).dims.2.2 →
        C.entry i j k = (NdArray3.mk (1, 2, 2) (fun _ _ _ => (2 : ℂ))).entry i j k *
          (NdArray3.mk (1, 2, 2) (fun _ _ _ => (3 : ℂ))).entry i j k :=
  apply_mask_elementwise (NdArray3.mk (1, 2, 2) (fun _ _ _ => 2))
    (NdArray3.mk (1, 2, 2) (fun _ _ _ => 3)) rfl

/-- Length of one trimmed mask chunk: always the chunk's own time extent
`min((i+1)·cs, tf) - i·cs`. -/
lemma chunk_elem_length (tf cs : ℕ) (mc : List ℂ) (hmc : mc.length = cs) (i : ℕ) :
    (if min ((i + 1) * cs) tf - i * cs < cs
      then mc.take (min ((i + 1) * cs) tf - i * cs) else mc).length
      = min ((i + 1) * cs) tf - i * cs := by
  have hmul : (i + 1) * cs = i * cs + cs := by ring
  rw [hmul]
  generalize i * cs = A
  by_cases h : min (A + cs) tf - A < cs
  · rw [if_pos h, List.length_take, hmc]
    omega
  · rw [if_neg h, hmc]
    omega

/-- The chunk extents telescope: the first `n` chunks jointly cover
`min(n·cs, tf)` time frames. -/
lemma sum_chunk_extents (tf cs : ℕ) (n : ℕ) :
    ((List.range n).map (fun i => min ((i + 1) * cs) tf - i * cs)).sum
      = min (n * cs) tf := by
  induction n with
  | zero => simp
  | succ k ih =>
    rw [List.range_succ, List.map_append, List.sum_append, ih]
    simp only [List.map_cons, List.map_nil, List.sum_cons, List.sum_nil, add_zero]
    have hmul : (k + 1) * cs = k * cs + cs := by ring
    rw [hmul]
    generalize k * cs = A
    omega

/-- C10: for every spectrogram with `tf ≥ 1` time frames and every engine
returning fixed `cs`-frame chunks, the chunked inference adapter returns a
mask of exactly `tf` time frames; it processes `⌈tf / cs⌉` chunks
(`(tf + cs - 1) / cs`, the least count whose chunks cover `tf`), and every
non-final chunk's input is the raw slice with no padding applied. -/
theorem chunked_inference_time_extent (spec : ℕ → ℕ → List ℂ) (channels tf cs : ℕ)
    (engine : (ℕ → ℕ → List ℝ) → (ℕ → ℕ → List ℂ)) (c f : ℕ)
    (hcs : 0 < cs) (htf : 1 ≤ tf)
    (hlen : ∀ c0 f0, (spec c0 f0).length = tf)
    (hengine : ∀ inp c0 f0, (engine inp c0 f0).length = cs) :
    (runChunkedInference spec channels tf cs engine c f).length = tf ∧
    (tf ≤ numChunks tf cs * cs ∧ ∀ m0, tf ≤ m0 * cs → numChunks tf cs ≤ m0) ∧
    (∀ i p f0, (i + 1) * cs ≤ tf →
      inputPlane spec channels (i * cs) (min ((i + 1) * cs) tf) cs p f0
        = rawPlane spec channels (i * cs) ((i + 1) * cs) p f0) := by
  have hceil1 : tf ≤ numChunks tf cs * cs := by
    have h := Nat.lt_div_mul_add (a := tf + cs - 1) hcs
    rw [numChunks]
    generalize hX : (tf + cs - 1) / cs * cs = X at h ⊢
    omega
  have hceil2 : ∀ m0, tf ≤ m0 * cs → numChunks tf cs ≤ m0 := by
    intro m0 hm
    have h2 : tf + cs - 1 < (m0 + 1) * cs := by
      have hmul : (m0 + 1) * cs = m0 * cs + cs := by ring
      rw [hmul]
      generalize m0 * cs = X at hm ⊢
      omega
    have h3 := (Nat.div_lt_iff_lt_mul hcs).mpr h2
    rw [numChunks]
    omega
  refine ⟨?_, ⟨hceil1, hceil2⟩, ?_⟩
  · rw [runChunkedInference, List.length_flatten, List.map_map]
    have hmap : ∀ i ∈ List.range (numChunks tf cs),
        (List.length ∘ fun i =>
          let start := i * cs
          let stop := min ((i + 1) * cs) tf
          let maskChunk := engine (inputPlane spec channels start stop cs) c f
          if stop - start < cs then maskChunk.take (stop - start) else maskChunk) i
          = min ((i + 1) * cs) tf - i * cs := by
      intro i _
      exact chunk_elem_length tf cs _ (hengine _ _ _) i
    rw [List.map_congr_left hmap, sum_chunk_extents tf cs]
    generalize numChunks tf cs * cs = X at hceil1 ⊢
    omega
  · intro i p f0 hfit
    have hmin : min ((i + 1) * cs) tf = (i + 1) * cs := min_eq_left hfit
    have hraw : (rawPlane spec channels (i * cs) ((i + 1) * cs) p f0).length = cs := by
      by_cases hpar : p % 2 = 0
      · rw [rawPlane, if_pos hpar, sliceTime, List.length_take, List.length_drop, realPlane,
          List.length_map, hlen]
        have hmul : (i + 1) * cs = i * cs + cs := by ring
        rw [hmul] at hfit ⊢
        generalize i * cs = A at hfit ⊢
        omega
      · rw [rawPlane, if_neg hpar, sliceTime, List.length_take, List.length_drop, imagPlane,
          List.length_map, hlen]
        have hmul : (i + 1) * cs = i * cs + cs := by ring
        rw [hmul] at hfit ⊢
        generalize i * cs = A at hfit ⊢
        omega
    rw [hmin, inputPlane, padChunk, if_neg (by rw [hraw]; omega)]

/-- Witness for C10: a 3-frame spectrogram with `cs = 2` and a constant
2-frame engine yields a 3-frame mask from 2 chunks. -/
theorem chunked_inference_time_extent_witness :
    (runChunkedInference (fun _ _ => [(1 : ℂ), 2, 3]) 2 3 2 (fun _ _ _ => [(5 : ℂ), 6]) 0 0).length
        = 3 ∧
    (3 ≤ numChunks 3 2 * 2 ∧ ∀ m0, 3 ≤ m0 * 2 → numChunks 3 2 ≤ m0) ∧
    (∀ i p f0, (i + 1) * 2 ≤ 3 →
      inputPlane (fun _ _ => [(1 : ℂ), 2, 3]) 2 (i * 2) (min ((i + 1) * 2) 3) 2 p f0
        = rawPlane (fun _ _ => [(1 : ℂ), 2, 3]) 2 (i * 2) ((i + 1) * 2) p f0) :=
  chunked_inference_time_extent (fun _ _ => [(1 : ℂ), 2, 3]) 2 3 2
    (fun _ _ _ => [(5 : ℂ), 6]) 0 0 (by norm_num) (by norm_num)
    (fun _ _ => rfl) (fun _ _ _ => rfl)

end VocalLab
